import Mathlib

/-!
Verification of the diffusion module of the EdiTTS repository
(src/model/diffusion.py): the linear noise schedule, forward and
reverse diffusion, the training loss, and the dual-trajectory editing
procedures `double_forward_pitch` / `double_forward_text`.

Modelling conventions: a tensor is a real-valued function over an index
type (the time axis is `ℕ` where slicing matters); one batch element is
modelled, as every operation is pointwise across the batch; the score
network is an opaque function held in the `Diffusion` structure; every
gaussian draw of the source (`torch.randn`, `torch.rand`) is an explicit
parameter; the `assert False` of the editing functions is an
`Except.error`.
-/

namespace EdiTTS

noncomputable section

/-- `get_noise` of src/model/diffusion.py: the linear noise schedule,
instantaneous (`cumulative = false`) or cumulative. -/
def get_noise (t beta_init beta_term : ℝ) (cumulative : Bool) : ℝ :=
  if cumulative then beta_init * t + 0.5 * (beta_term - beta_init) * t ^ 2
  else beta_init + (beta_term - beta_init) * t

/-- The `Diffusion` module's schedule constants, with its score network
`estimator` kept opaque: an arbitrary function of `(x, mask, mu, t)`. -/
structure Diffusion (ι : Type) where
  estimator : (ι → ℝ) → (ι → ℝ) → (ι → ℝ) → ℝ → ι → ℝ
  n_feats : ℝ
  beta_min : ℝ
  beta_max : ℝ

variable {ι : Type}

/-- The deterministic per-step increment `dxt` shared by
`reverse_diffusion`, `double_forward_pitch` and `double_forward_text`:
`0.5 * (mu - xt - estimator(xt, mask, mu, t)) * noise_t * h`. -/
def dxt_of (D : Diffusion ι) (mask mu : ι → ℝ) (h t : ℝ) (xt : ι → ℝ) : ι → ℝ :=
  fun j => 0.5 * (mu j - xt j - D.estimator xt mask mu t j)
    * get_noise t D.beta_min D.beta_max false * h

/-- One iteration of the loop of `Diffusion.reverse_diffusion`; the
gaussian draw of the stochastic branch is the explicit `draw`. -/
def reverse_step (D : Diffusion ι) (mask mu : ι → ℝ) (h t : ℝ) (stoc : Bool)
    (draw : ι → ℝ) (xt : ι → ℝ) : ι → ℝ :=
  if stoc then
    fun j => (xt j -
      ((0.5 * (mu j - xt j) - D.estimator xt mask mu t j)
          * get_noise t D.beta_min D.beta_max false * h
        + draw j * Real.sqrt (get_noise t D.beta_min D.beta_max false * h))) * mask j
  else
    fun j => (xt j - dxt_of D mask mu h t xt j) * mask j

/-- `Diffusion.reverse_diffusion`: `n_timesteps` integration steps of size
`h = 1/n_timesteps` at times `t = 1 - (i + 0.5) * h`, from `z * mask`. -/
def reverse_diffusion (D : Diffusion ι) (z mask mu : ι → ℝ) (n_timesteps : ℕ)
    (stoc : Bool) (draws : ℕ → ι → ℝ) : ι → ℝ :=
  (List.range n_timesteps).foldl
    (fun xt (i : ℕ) => reverse_step D mask mu (1 / (n_timesteps : ℝ))
      (1 - ((i : ℝ) + 0.5) * (1 / (n_timesteps : ℝ))) stoc (draws i) xt)
    fun j => z j * mask j

/-- `Diffusion.forward_diffusion`; the standard-normal draw is the
explicit `z`. -/
def forward_diffusion (D : Diffusion ι) (x0 mask mu : ι → ℝ) (t : ℝ)
    (z : ι → ℝ) : (ι → ℝ) × (ι → ℝ) :=
  let cum_noise := get_noise t D.beta_min D.beta_max true
  let mean := fun j =>
    x0 j * Real.exp (-0.5 * cum_noise) + mu j * (1 - Real.exp (-0.5 * cum_noise))
  let variance := 1 - Real.exp (-cum_noise)
  (fun j => (mean j + z j * Real.sqrt variance) * mask j, fun j => z j * mask j)

/-- `Diffusion.loss_t` over a finite index set (one batch element). -/
def loss_t [Fintype ι] (D : Diffusion ι) (x0 mask mu : ι → ℝ) (t : ℝ)
    (z : ι → ℝ) : ℝ :=
  let xtz := forward_diffusion D x0 mask mu t z
  let cum_noise := get_noise t D.beta_min D.beta_max true
  let noise_estimation := fun j =>
    D.estimator xtz.1 mask mu t j * Real.sqrt (1 - Real.exp (-cum_noise))
  (∑ j, (noise_estimation j + xtz.2 j) ^ 2) / ((∑ j, mask j) * D.n_feats)

/-- `torch.clamp` on a scalar. -/
def clamp (x lo hi : ℝ) : ℝ := min (max x lo) hi

/-- `Diffusion.compute_loss`; the uniform draw of `t` is the explicit
`tdraw`. -/
def compute_loss [Fintype ι] (D : Diffusion ι) (x0 mask mu : ι → ℝ)
    (offset tdraw : ℝ) (z : ι → ℝ) : ℝ :=
  loss_t D x0 mask mu (clamp tdraw offset (1 - offset)) z

/-- The normalized triangular power-of-two kernel built by the mask
softening of `double_forward_pitch` / `double_forward_text`. -/
def soften_kernel (n_soften : ℕ) : List ℝ :=
  let raw : List ℝ := (List.range (2 * n_soften - 1)).map fun i =>
    (2 : ℝ) ^ ((n_soften - 1) - ((n_soften : ℤ) - 1 - (i : ℤ)).natAbs)
  let s := (raw.take ((2 * n_soften - 1) / 2 + 1)).sum
  raw.map fun x => x / s

/-- Replicate padding of a length-`T` signal, as in
`F.pad(..., mode="replicate")`. -/
def replicate_pad (T : ℕ) (m : ℕ → ℝ) (j : ℤ) : ℝ :=
  m (min (max j 0) ((T : ℤ) - 1)).toNat

/-- The mask-softening preprocessing of the editing functions: convolve
the replicate-padded mask with `soften_kernel` along the time axis and
blend `soft = hard + (1 - hard) * smoothed`. -/
def soften (n_soften T : ℕ) (m : ℕ → ℝ) : ℕ → ℝ := fun j =>
  let k := soften_kernel n_soften
  let smoothed := ((List.range k.length).map fun i =>
    k.getD i 0 * replicate_pad T m ((j : ℤ) + (i : ℤ) - (k.length / 2 : ℕ))).sum
  m j + (1 - m j) * smoothed

/-- The deterministic branch of one loop iteration of
`Diffusion.double_forward_pitch`, updating the pair `(xt, xt_edit)`. -/
def pitch_step_det (D : Diffusion ℕ) (mu mu_edit mask mask_edit : ℕ → ℝ)
    (h t : ℝ) (p : (ℕ → ℝ) × (ℕ → ℝ)) : (ℕ → ℝ) × (ℕ → ℝ) :=
  (fun j => (p.1 j - dxt_of D mask mu h t p.1 j) * mask j,
   fun j => (p.2 j - ((1 - mask_edit j) * dxt_of D mask mu h t p.1 j
      + mask_edit j * dxt_of D mask mu_edit h t p.2 j)) * mask j)

/-- One loop iteration of `Diffusion.double_forward_pitch`; the
`assert False` of the stochastic branch is an `Except.error`. -/
def pitch_step (D : Diffusion ℕ) (mu mu_edit mask mask_edit : ℕ → ℝ)
    (h t : ℝ) (stoc : Bool) (p : (ℕ → ℝ) × (ℕ → ℝ)) :
    Except Unit ((ℕ → ℝ) × (ℕ → ℝ)) :=
  if stoc then Except.error ()
  else Except.ok (pitch_step_det D mu mu_edit mask mask_edit h t p)

/-- `Diffusion.double_forward_pitch`. -/
def double_forward_pitch (D : Diffusion ℕ)
    (z z_edit mu mu_edit mask mask_edit : ℕ → ℝ) (n_timesteps : ℕ)
    (stoc soften_mask : Bool) (n_soften T : ℕ) :
    Except Unit ((ℕ → ℝ) × (ℕ → ℝ)) :=
  let me := if soften_mask then soften n_soften T mask_edit else mask_edit
  (List.range n_timesteps).foldlM
    (fun p (i : ℕ) => pitch_step D mu mu_edit mask me (1 / (n_timesteps : ℝ))
      (1 - ((i : ℝ) + 0.5) * (1 / (n_timesteps : ℝ))) stoc p)
    (fun j => z j * mask j, fun j => z_edit j * mask j)

/-- The zero-initialized relocation buffer of `double_forward_text`:
`dxt_trg[i1 : i1 + (j2 - i2)] = dxt[i2 : j2]`, zero elsewhere.  The index
spans are assumed in bounds (the tensor code would raise otherwise). -/
def dxt_trg_of (dxt : ℕ → ℝ) (i1 i2 j2 : ℕ) : ℕ → ℝ := fun j =>
  if i1 ≤ j ∧ j < i1 + (j2 - i2) then dxt (i2 + (j - i1)) else 0

/-- The deterministic branch of one loop iteration of
`Diffusion.double_forward_text`. -/
def text_step_det (D : Diffusion ℕ)
    (mu mu_edit mask mask_edit_net mask_edit_grad : ℕ → ℝ) (i1 i2 j2 : ℕ)
    (h t : ℝ) (p : (ℕ → ℝ) × (ℕ → ℝ)) : (ℕ → ℝ) × (ℕ → ℝ) :=
  (fun j => (p.1 j - dxt_of D mask mu h t p.1 j) * mask j,
   fun j => (p.2 j -
      (mask_edit_grad j * dxt_trg_of (dxt_of D mask mu h t p.1) i1 i2 j2 j
        + (1 - mask_edit_grad j) * dxt_of D mask_edit_net mu_edit h t p.2 j))
      * mask_edit_net j)

/-- One loop iteration of `Diffusion.double_forward_text`; the
`assert False` of the stochastic branch is an `Except.error`. -/
def text_step (D : Diffusion ℕ)
    (mu mu_edit mask mask_edit_net mask_edit_grad : ℕ → ℝ) (i1 i2 j2 : ℕ)
    (h t : ℝ) (stoc : Bool) (p : (ℕ → ℝ) × (ℕ → ℝ)) :
    Except Unit ((ℕ → ℝ) × (ℕ → ℝ)) :=
  if stoc then Except.error ()
  else Except.ok
    (text_step_det D mu mu_edit mask mask_edit_net mask_edit_grad i1 i2 j2 h t p)

/-- `Diffusion.double_forward_text` (`j1` is accepted and unused, exactly
as in the source). -/
def double_forward_text (D : Diffusion ℕ)
    (z z_edit mu mu_edit mask mask_edit_net mask_edit_grad : ℕ → ℝ)
    (i1 j1 i2 j2 : ℕ) (n_timesteps : ℕ) (stoc soften_mask : Bool)
    (n_soften T : ℕ) : Except Unit ((ℕ → ℝ) × (ℕ → ℝ)) :=
  let mg := if soften_mask then soften n_soften T mask_edit_grad else mask_edit_grad
  (List.range n_timesteps).foldlM
    (fun p (i : ℕ) => text_step D mu mu_edit mask mask_edit_net mg i1 i2 j2
      (1 / (n_timesteps : ℝ)) (1 - ((i : ℝ) + 0.5) * (1 / (n_timesteps : ℝ))) stoc p)
    (fun j => z j * mask j, fun j => z_edit j * mask_edit_net j)

/-- Modelled from the spec §4.7: one deterministic Euler step,
`dx = 0.5*(mu - x - estimate(x,mask,mu,t)) * instantaneous_noise(t) * h`
followed by `x ↦ (x - dx) * mask`. -/
def euler_step (D : Diffusion ι) (mask mu : ι → ℝ) (h t : ℝ) (x : ι → ℝ) : ι → ℝ :=
  fun j => (x j - 0.5 * (mu j - x j - D.estimator x mask mu t j)
    * (D.beta_min + (D.beta_max - D.beta_min) * t) * h) * mask j

/-- Modelled from the spec §4.7: `n` Euler steps of size `h = 1/n` at the
midpoint times `t_i = 1 - (i + 0.5) * h`, started from `x = z * mask`. -/
def euler_steps (D : Diffusion ι) (z mask mu : ι → ℝ) (n : ℕ) : ι → ℝ :=
  (List.range n).foldl
    (fun x (i : ℕ) => euler_step D mask mu (1 / (n : ℝ))
      (1 - ((i : ℝ) + 0.5) * (1 / (n : ℝ))) x)
    fun j => z j * mask j

/-- Modelled from claim C5's words: the stochastic update as the
deterministic branch's `dx` plus the injected `sqrt(noise_t*h) * draw`. -/
def claimed_stoch_step (D : Diffusion ι) (mask mu : ι → ℝ) (h t : ℝ)
    (draw : ι → ℝ) (x : ι → ℝ) : ι → ℝ :=
  fun j => (x j - (0.5 * (mu j - x j - D.estimator x mask mu t j)
      * (D.beta_min + (D.beta_max - D.beta_min) * t) * h
    + draw j * Real.sqrt ((D.beta_min + (D.beta_max - D.beta_min) * t) * h))) * mask j

/-- The stochastic update as the source computes it:
`dx = (0.5*(mu - x) - estimate(x,mask,mu,t)) * noise_t * h` plus the
injected `sqrt(noise_t*h) * draw` — the score estimate enters at full
weight, outside the halved bracket. -/
def code_stoch_step (D : Diffusion ι) (mask mu : ι → ℝ) (h t : ℝ)
    (draw : ι → ℝ) (x : ι → ℝ) : ι → ℝ :=
  fun j => (x j - ((0.5 * (mu j - x j) - D.estimator x mask mu t j)
      * (D.beta_min + (D.beta_max - D.beta_min) * t) * h
    + draw j * Real.sqrt ((D.beta_min + (D.beta_max - D.beta_min) * t) * h))) * mask j

/-- `n` stochastic steps of `code_stoch_step` at the midpoint times. -/
def code_stoch_steps (D : Diffusion ι) (z mask mu : ι → ℝ) (n : ℕ)
    (draws : ℕ → ι → ℝ) : ι → ℝ :=
  (List.range n).foldl
    (fun x (i : ℕ) => code_stoch_step D mask mu (1 / (n : ℝ))
      (1 - ((i : ℝ) + 0.5) * (1 / (n : ℝ))) (draws i) x)
    fun j => z j * mask j

/-- A concrete instance with a vanishing score network, for witnesses. -/
def Dtest : Diffusion ℕ :=
  { estimator := fun _ _ _ _ _ => 0, n_feats := 80, beta_min := 0.05, beta_max := 20 }

/-- A concrete instance with a constant-one score network and a constant
noise schedule, for the C5 counterexample. -/
def Dcex : Diffusion Unit :=
  { estimator := fun _ _ _ _ _ => 1, n_feats := 1, beta_min := 1, beta_max := 1 }

/-! Generic facts about folds, used to relate the lockstep edit loops to
plain reverse diffusion. -/

theorem foldl_ext_fun {α β : Type*} (f g : α → β → α) (l : List β) (init : α)
    (H : ∀ a b, f a b = g a b) : l.foldl f init = l.foldl g init := by
  induction l generalizing init with
  | nil => rfl
  | cons b l ih => rw [List.foldl_cons, List.foldl_cons, H, ih]

theorem foldl_invariant {α β : Type*} (P : α → Prop) (g : α → β → α)
    (l : List β) (init : α) (h0 : P init)
    (hstep : ∀ a b, P a → P (g a b)) : P (l.foldl g init) := by
  induction l generalizing init with
  | nil => exact h0
  | cons b l ih => exact ih _ (hstep _ _ h0)

theorem foldl_fst {α β γ : Type*} (g : α × β → γ → α × β) (g1 : α → γ → α)
    (hg : ∀ p c, (g p c).1 = g1 p.1 c) (l : List γ) (init : α × β) :
    (l.foldl g init).1 = l.foldl g1 init.1 := by
  induction l generalizing init with
  | nil => rfl
  | cons c l ih => rw [List.foldl_cons, List.foldl_cons, ih, hg]

theorem foldl_snd {α β γ : Type*} (g : α × β → γ → α × β) (g2 : β → γ → β)
    (hg : ∀ p c, (g p c).2 = g2 p.2 c) (l : List γ) (init : α × β) :
    (l.foldl g init).2 = l.foldl g2 init.2 := by
  induction l generalizing init with
  | nil => rfl
  | cons c l ih => rw [List.foldl_cons, List.foldl_cons, ih, hg]

theorem foldlM_except_ok {α β ε : Type} (g : α → β → α) (l : List β) (init : α) :
    (l.foldlM (fun a b => (Except.ok (g a b) : Except ε α)) init)
      = Except.ok (l.foldl g init) := by
  induction l generalizing init with
  | nil => rfl
  | cons b l ih => rw [List.foldlM_cons]; exact ih (g init b)

/-! The mask-softening preprocessing fixes the two constant masks. -/

theorem soften_const_zero (n_soften T : ℕ) :
    soften n_soften T (fun _ => 0) = fun _ => 0 := by
  funext j
  simp [soften, replicate_pad]

theorem soften_const_one (n_soften T : ℕ) :
    soften n_soften T (fun _ => 1) = fun _ => 1 := by
  funext j
  simp [soften]

/-! With `stoc = false` the editing loops never reach the error branch and
reduce to plain folds of their deterministic steps. -/

theorem double_forward_pitch_false (D : Diffusion ℕ)
    (z z_edit mu mu_edit mask mask_edit : ℕ → ℝ) (n : ℕ)
    (sm : Bool) (ns T : ℕ) :
    double_forward_pitch D z z_edit mu mu_edit mask mask_edit n false sm ns T
      = Except.ok ((List.range n).foldl
          (fun p (i : ℕ) => pitch_step_det D mu mu_edit mask
            (if sm then soften ns T mask_edit else mask_edit) (1 / (n : ℝ))
            (1 - ((i : ℝ) + 0.5) * (1 / (n : ℝ))) p)
          (fun j => z j * mask j, fun j => z_edit j * mask j)) := by
  exact foldlM_except_ok _ _ _

theorem double_forward_text_false (D : Diffusion ℕ)
    (z z_edit mu mu_edit mask men meg : ℕ → ℝ) (i1 j1 i2 j2 : ℕ) (n : ℕ)
    (sm : Bool) (ns T : ℕ) :
    double_forward_text D z z_edit mu mu_edit mask men meg i1 j1 i2 j2 n false sm ns T
      = Except.ok ((List.range n).foldl
          (fun p (i : ℕ) => text_step_det D mu mu_edit mask men
            (if sm then soften ns T meg else meg) i1 i2 j2 (1 / (n : ℝ))
            (1 - ((i : ℝ) + 0.5) * (1 / (n : ℝ))) p)
          (fun j => z j * mask j, fun j => z_edit j * men j)) := by
  exact foldlM_except_ok _ _ _

/-- C8: the noise schedule satisfies
`instantaneous_noise(t) = beta_min + (beta_max - beta_min)*t` and
`cumulative_noise(t) = beta_min*t + 0.5*(beta_max - beta_min)*t^2`; the
cumulative form is the exact integral of the instantaneous form from 0:
it vanishes at 0 and its derivative is the instantaneous form.  Both are
pure functions of `t` and the two schedule constants. -/
theorem c8_noise_schedule (t beta_init beta_term : ℝ) :
    get_noise t beta_init beta_term false = beta_init + (beta_term - beta_init) * t
    ∧ get_noise t beta_init beta_term true
        = beta_init * t + 0.5 * (beta_term - beta_init) * t ^ 2
    ∧ get_noise 0 beta_init beta_term true = 0
    ∧ HasDerivAt (fun s => get_noise s beta_init beta_term true)
        (get_noise t beta_init beta_term false) t := by
  refine ⟨rfl, rfl, by simp [get_noise], ?_⟩
  have h1 : HasDerivAt (fun s : ℝ => beta_init * s) (beta_init * 1) t :=
    (hasDerivAt_id t).const_mul beta_init
  have h2 : HasDerivAt (fun s : ℝ => s ^ 2) (2 * t) t := by
    simpa using hasDerivAt_pow 2 t
  have h3 : HasDerivAt
      (fun s : ℝ => beta_init * s + 0.5 * (beta_term - beta_init) * s ^ 2)
      (beta_init * 1 + 0.5 * (beta_term - beta_init) * (2 * t)) t :=
    h1.add (h2.const_mul (0.5 * (beta_term - beta_init)))
  have he : (fun s : ℝ => get_noise s beta_init beta_term true)
      = fun s : ℝ => beta_init * s + 0.5 * (beta_term - beta_init) * s ^ 2 := by
    funext s; simp [get_noise]
  rw [he, get_noise]
  convert h3 using 1
  push_cast
  ring

/-- C2: `forward_diffusion(x0, mask, mu, t)` applied to the drawn
standard-normal `z` returns the pair `(xt * mask, z * mask)` with
`xt = mean + z * sqrt(variance)`,
`mean = x0*exp(-0.5*cum_noise) + mu*(1 - exp(-0.5*cum_noise))` and
`variance = 1 - exp(-cum_noise)`; the second component is exactly the
masked noise instance used to form the first. -/
theorem c2_forward_diffusion (D : Diffusion ι) (x0 mask mu z : ι → ℝ) (t : ℝ) :
    forward_diffusion D x0 mask mu t z =
      (fun j => ((x0 j * Real.exp (-0.5 * get_noise t D.beta_min D.beta_max true)
          + mu j * (1 - Real.exp (-0.5 * get_noise t D.beta_min D.beta_max true)))
          + z j * Real.sqrt (1 - Real.exp (-(get_noise t D.beta_min D.beta_max true))))
          * mask j,
       fun j => z j * mask j) := rfl

/-- C9: `compute_loss` clamps the drawn `t` into `[1e-5, 1 - 1e-5]` and
delegates to `loss_t`; `loss_t` scales the network estimate at `xt` by
`sqrt(1 - exp(-cum_noise))` and divides the summed squared error of
`scaled_estimate + masked z` by `sum(mask) * n_feats`. -/
theorem c9_loss_normalization [Fintype ι] (D : Diffusion ι)
    (x0 mask mu z : ι → ℝ) (tdraw : ℝ) :
    compute_loss D x0 mask mu 1e-5 tdraw z
        = loss_t D x0 mask mu (min (max tdraw 1e-5) (1 - 1e-5)) z
    ∧ ∀ t : ℝ, loss_t D x0 mask mu t z =
        (∑ j, (D.estimator (forward_diffusion D x0 mask mu t z).1 mask mu t j
            * Real.sqrt (1 - Real.exp (-(get_noise t D.beta_min D.beta_max true)))
          + z j * mask j) ^ 2)
        / ((∑ j, mask j) * D.n_feats) :=
  ⟨rfl, fun _ => rfl⟩

/-- C1: with `stoc = false`, `reverse_diffusion(z, mask, mu, n)` starts at
`x = z * mask` and performs exactly `n` Euler steps of size `h = 1/n` at
the midpoint times `t_i = 1 - (i + 0.5) * h`, each step being
`dx = 0.5*(mu - x - estimate(x,mask,mu,t_i)) * instantaneous_noise(t_i) * h`
followed by `x = (x - dx) * mask`; with `n = 1` the result is exactly one
such step at `t = 0.5`. -/
theorem c1_reverse_diffusion_euler (D : Diffusion ι) (z mask mu : ι → ℝ)
    (n : ℕ) (hn : 1 ≤ n) (draws : ℕ → ι → ℝ) :
    reverse_diffusion D z mask mu n false draws = euler_steps D z mask mu n
    ∧ reverse_diffusion D z mask mu 1 false draws
        = euler_step D mask mu 1 0.5 (fun j => z j * mask j) := by
  constructor
  · refine foldl_ext_fun _ _ _ _ fun x i => ?_
    funext j
    simp [reverse_step, euler_step, dxt_of, get_noise]
  · show (List.range 1).foldl _ _ = _
    have hr : List.range 1 = [0] := rfl
    rw [hr, List.foldl_cons, List.foldl_nil]
    funext j
    simp [reverse_step, euler_step, dxt_of, get_noise]
    norm_num

theorem c1_witness : 1 ≤ 1 ∧
    reverse_diffusion Dtest (fun _ => 0) (fun _ => 1) (fun _ => 2) 1 false
        (fun _ _ => 0)
      = euler_steps Dtest (fun _ => 0) (fun _ => 1) (fun _ => 2) 1 :=
  ⟨le_refl 1,
    (c1_reverse_diffusion_euler Dtest (fun _ => 0) (fun _ => 1) (fun _ => 2) 1
      (le_refl 1) (fun _ _ => 0)).1⟩

/-- C5 counterexample: the claim says each stochastic step equals the
deterministic branch's `dx = 0.5*(mu - x - estimate)*noise_t*h` plus the
injected noise, but the source computes
`dxt_det = (0.5*(mu - x) - estimate)*noise_t*h`; with a constant-one
estimator, zero input and a zero draw the two differ (1 versus 0.5). -/
theorem c5_counterexample :
    reverse_diffusion Dcex (fun _ => 0) (fun _ => 1) (fun _ => 0) 1 true
        (fun _ _ => 0) ()
      ≠ claimed_stoch_step Dcex (fun _ => 1) (fun _ => 0) 1 0.5 (fun _ => 0)
          (fun j => (0 : ℝ) * 1) () := by
  have hr : List.range 1 = [0] := rfl
  rw [reverse_diffusion, hr, List.foldl_cons, List.foldl_nil]
  simp [reverse_step, claimed_stoch_step, Dcex]
  norm_num [get_noise]

/-- C5 amended: with `stoc = true`, each step of `reverse_diffusion` has
drift `(0.5*(mu - x) - estimate(x,mask,mu,t_i)) * noise_t * h` — the score
estimate at full weight, not inside the halved bracket — plus the
injected `sqrt(noise_t*h) * N(0,1)`; so it differs from the deterministic
drift by `0.5 * estimate * noise_t * h` and coincides with it only where
the estimate vanishes. -/
theorem c5_stochastic_branch (D : Diffusion ι) (z mask mu : ι → ℝ) (n : ℕ)
    (draws : ℕ → ι → ℝ) :
    reverse_diffusion D z mask mu n true draws
        = code_stoch_steps D z mask mu n draws
    ∧ ∀ (h t : ℝ) (draw x : ι → ℝ) (j : ι),
        code_stoch_step D mask mu h t draw x j
          = claimed_stoch_step D mask mu h t draw x j
            + 0.5 * D.estimator x mask mu t j
              * (D.beta_min + (D.beta_max - D.beta_min) * t) * h * mask j := by
  constructor
  · refine foldl_ext_fun _ _ _ _ fun x i => ?_
    funext j
    simp [reverse_step, code_stoch_step, get_noise]
  · intro h t draw x j
    simp [code_stoch_step, claimed_stoch_step]
    ring

/-- C3: with `stoc = false`, `z_edit = z` and an everywhere-zero edit mask
(softening maps the all-zero mask to itself), `double_forward_pitch`
returns `xt_edit` equal to `xt`: the edit trajectory degenerates to the
original one. -/
theorem c3_zero_edit_mask (D : Diffusion ℕ) (z mu mu_edit mask : ℕ → ℝ)
    (n : ℕ) (hn : 1 ≤ n) (sm : Bool) (ns T : ℕ) :
    ∃ x : ℕ → ℝ,
      double_forward_pitch D z z mu mu_edit mask (fun _ => 0) n false sm ns T
        = Except.ok (x, x) := by
  rw [double_forward_pitch_false]
  have hme : (if sm then soften ns T (fun _ => (0 : ℝ)) else fun _ : ℕ => (0 : ℝ))
      = fun _ => (0 : ℝ) := by
    cases sm <;> simp [soften_const_zero]
  rw [hme]
  refine ⟨((List.range n).foldl
    (fun p (i : ℕ) => pitch_step_det D mu mu_edit mask (fun _ => 0) (1 / (n : ℝ))
      (1 - ((i : ℝ) + 0.5) * (1 / (n : ℝ))) p)
    (fun j => z j * mask j, fun j => z j * mask j)).1, ?_⟩
  have hinv := foldl_invariant
    (fun p : (ℕ → ℝ) × (ℕ → ℝ) => p.1 = p.2)
    (fun p (i : ℕ) => pitch_step_det D mu mu_edit mask (fun _ => 0) (1 / (n : ℝ))
      (1 - ((i : ℝ) + 0.5) * (1 / (n : ℝ))) p)
    (List.range n)
    ((fun j => z j * mask j, fun j => z j * mask j) : (ℕ → ℝ) × (ℕ → ℝ))
    rfl
    (fun p i hp => by
      have hp' : p.1 = p.2 := hp
      funext j
      dsimp only [pitch_step_det]
      rw [← hp']
      ring)
  congr 1
  rw [Prod.ext_iff]
  exact ⟨rfl, hinv.symm⟩

theorem c3_witness : 1 ≤ 1 ∧ ∃ x : ℕ → ℝ,
    double_forward_pitch Dtest (fun _ => 0) (fun _ => 0) (fun _ => 1) (fun _ => 2)
        (fun _ => 1) (fun _ => 0) 1 false false 1 1 = Except.ok (x, x) :=
  ⟨le_refl 1, c3_zero_edit_mask Dtest (fun _ => 0) (fun _ => 1) (fun _ => 2)
    (fun _ => 1) 1 (le_refl 1) false 1 1⟩

/-- C4: with `stoc = false` and an everywhere-one edit mask (softening
leaves it exactly one, since `soft = hard + (1-hard)*smoothed`),
`double_forward_pitch` returns `xt_edit` equal to an independent
`reverse_diffusion(z_edit, mask, mu_edit, n_timesteps)` call. -/
theorem c4_one_edit_mask (D : Diffusion ℕ) (z z_edit mu mu_edit mask : ℕ → ℝ)
    (n : ℕ) (hn : 1 ≤ n) (sm : Bool) (ns T : ℕ) :
    ∃ x : ℕ → ℝ,
      double_forward_pitch D z z_edit mu mu_edit mask (fun _ => 1) n false sm ns T
        = Except.ok
            (x, reverse_diffusion D z_edit mask mu_edit n false fun _ _ => 0) := by
  rw [double_forward_pitch_false]
  have hme : (if sm then soften ns T (fun _ => (1 : ℝ)) else fun _ : ℕ => (1 : ℝ))
      = fun _ => (1 : ℝ) := by
    cases sm <;> simp [soften_const_one]
  rw [hme]
  refine ⟨((List.range n).foldl
    (fun p (i : ℕ) => pitch_step_det D mu mu_edit mask (fun _ => 1) (1 / (n : ℝ))
      (1 - ((i : ℝ) + 0.5) * (1 / (n : ℝ))) p)
    (fun j => z j * mask j, fun j => z_edit j * mask j)).1, ?_⟩
  congr 1
  rw [Prod.ext_iff]
  refine ⟨rfl, ?_⟩
  have hsnd := foldl_snd
    (fun p (i : ℕ) => pitch_step_det D mu mu_edit mask (fun _ => 1) (1 / (n : ℝ))
      (1 - ((i : ℝ) + 0.5) * (1 / (n : ℝ))) p)
    (fun x (i : ℕ) => reverse_step D mask mu_edit (1 / (n : ℝ))
      (1 - ((i : ℝ) + 0.5) * (1 / (n : ℝ))) false (fun _ => 0) x)
    (fun p i => by
      funext j
      simp [pitch_step_det, reverse_step])
    (List.range n)
    ((fun j => z j * mask j, fun j => z_edit j * mask j) : (ℕ → ℝ) × (ℕ → ℝ))
  rw [hsnd]
  rfl

theorem c4_witness : 1 ≤ 1 ∧ ∃ x : ℕ → ℝ,
    double_forward_pitch Dtest (fun _ => 0) (fun _ => 3) (fun _ => 1) (fun _ => 2)
        (fun _ => 1) (fun _ => 1) 1 false false 1 1
      = Except.ok (x, reverse_diffusion Dtest (fun _ => 3) (fun _ => 1)
          (fun _ => 2) 1 false fun _ _ => 0) :=
  ⟨le_refl 1, c4_one_edit_mask Dtest (fun _ => 0) (fun _ => 3) (fun _ => 1)
    (fun _ => 2) (fun _ => 1) 1 (le_refl 1) false 1 1⟩

/-- C10: with `stoc = false`, for any edit arguments whatsoever, the first
component `xt` returned by `double_forward_pitch` and by
`double_forward_text` equals `reverse_diffusion(z, mask, mu, n_timesteps)`:
the original trajectory is never perturbed by the edit machinery. -/
theorem c10_original_trajectory (D : Diffusion ℕ) (z mask mu : ℕ → ℝ)
    (n : ℕ) (hn : 1 ≤ n) (z_edit mu_edit mask_edit men meg : ℕ → ℝ)
    (i1 j1 i2 j2 : ℕ) (sm : Bool) (ns T : ℕ) :
    (double_forward_pitch D z z_edit mu mu_edit mask mask_edit n
        false sm ns T).map Prod.fst
      = Except.ok (reverse_diffusion D z mask mu n false fun _ _ => 0)
    ∧ (double_forward_text D z z_edit mu mu_edit mask men meg i1 j1 i2 j2 n
        false sm ns T).map Prod.fst
      = Except.ok (reverse_diffusion D z mask mu n false fun _ _ => 0) := by
  constructor
  · rw [double_forward_pitch_false]
    show Except.ok _ = _
    congr 1
    rw [foldl_fst
      (fun p (i : ℕ) => pitch_step_det D mu mu_edit mask
        (if sm then soften ns T mask_edit else mask_edit) (1 / (n : ℝ))
        (1 - ((i : ℝ) + 0.5) * (1 / (n : ℝ))) p)
      (fun x (i : ℕ) => reverse_step D mask mu (1 / (n : ℝ))
        (1 - ((i : ℝ) + 0.5) * (1 / (n : ℝ))) false (fun _ => 0) x)
      (fun p i => rfl)
      (List.range n)
      ((fun j => z j * mask j, fun j => z_edit j * mask j) : (ℕ → ℝ) × (ℕ → ℝ))]
    rfl
  · rw [double_forward_text_false]
    show Except.ok _ = _
    congr 1
    rw [foldl_fst
      (fun p (i : ℕ) => text_step_det D mu mu_edit mask men
        (if sm then soften ns T meg else meg) i1 i2 j2 (1 / (n : ℝ))
        (1 - ((i : ℝ) + 0.5) * (1 / (n : ℝ))) p)
      (fun x (i : ℕ) => reverse_step D mask mu (1 / (n : ℝ))
        (1 - ((i : ℝ) + 0.5) * (1 / (n : ℝ))) false (fun _ => 0) x)
      (fun p i => rfl)
      (List.range n)
      ((fun j => z j * mask j, fun j => z_edit j * men j) : (ℕ → ℝ) × (ℕ → ℝ))]
    rfl

theorem c10_witness : 1 ≤ 1 ∧
    (double_forward_pitch Dtest (fun _ => 0) (fun _ => 3) (fun _ => 1) (fun _ => 2)
        (fun _ => 1) (fun _ => 0) 1 false false 1 1).map Prod.fst
      = Except.ok (reverse_diffusion Dtest (fun _ => 0) (fun _ => 1) (fun _ => 1) 1
          false fun _ _ => 0) :=
  ⟨le_refl 1, (c10_original_trajectory Dtest (fun _ => 0) (fun _ => 1) (fun _ => 1)
    1 (le_refl 1) (fun _ => 3) (fun _ => 2) (fun _ => 0) (fun _ => 1) (fun _ => 0)
    0 0 0 0 false 1 1).1⟩

/-- C6: with `stoc = true` and `n_timesteps ≥ 1`, `double_forward_pitch`
and `double_forward_text` abort (the `assert False`) during the first loop
iteration, before any trajectory update, returning no value; with
`stoc = false` the assertion branch is never reached and a value is
returned. -/
theorem c6_stoc_asserts_unreachable (D : Diffusion ℕ)
    (z z_edit mu mu_edit mask mask_edit men meg : ℕ → ℝ) (i1 j1 i2 j2 : ℕ)
    (n : ℕ) (hn : 1 ≤ n) (sm : Bool) (ns T : ℕ) :
    double_forward_pitch D z z_edit mu mu_edit mask mask_edit n true sm ns T
        = Except.error ()
    ∧ double_forward_text D z z_edit mu mu_edit mask men meg i1 j1 i2 j2 n
        true sm ns T = Except.error ()
    ∧ (∃ p, double_forward_pitch D z z_edit mu mu_edit mask mask_edit n
        false sm ns T = Except.ok p)
    ∧ (∃ q, double_forward_text D z z_edit mu mu_edit mask men meg i1 j1 i2 j2 n
        false sm ns T = Except.ok q) := by
  obtain ⟨m, rfl⟩ : ∃ m, n = m + 1 := ⟨n - 1, by omega⟩
  refine ⟨?_, ?_,
    ⟨_, double_forward_pitch_false D z z_edit mu mu_edit mask mask_edit (m + 1) sm ns T⟩,
    ⟨_, double_forward_text_false D z z_edit mu mu_edit mask men meg i1 j1 i2 j2
      (m + 1) sm ns T⟩⟩
  · unfold double_forward_pitch
    rw [List.range_succ_eq_map]
    rfl
  · unfold double_forward_text
    rw [List.range_succ_eq_map]
    rfl

theorem c6_witness : 1 ≤ 1 ∧
    double_forward_pitch Dtest (fun _ => 0) (fun _ => 3) (fun _ => 1) (fun _ => 2)
        (fun _ => 1) (fun _ => 0) 1 true false 1 1 = Except.error () :=
  ⟨le_refl 1, (c6_stoc_asserts_unreachable Dtest (fun _ => 0) (fun _ => 3)
    (fun _ => 1) (fun _ => 2) (fun _ => 1) (fun _ => 0) (fun _ => 1) (fun _ => 0)
    0 0 0 0 1 (le_refl 1) false 1 1).1⟩

/-- C7: in every deterministic step of `double_forward_text` the
relocation buffer is zero at every time index outside
`[i1, i1 + (j2 - i2))` and inside that range holds the original
trajectory's delta `dxt` at the corresponding index of `[i2, j2)`; the
edit update blends the buffer with the edit trajectory's own delta under
`mask_edit_grad` and masks the result by `mask_edit_net`. -/
theorem c7_text_relocation (D : Diffusion ℕ) (mu mu_edit mask men meg : ℕ → ℝ)
    (i1 i2 j2 : ℕ) (h t : ℝ) (p : (ℕ → ℝ) × (ℕ → ℝ)) (j k : ℕ)
    (hj : i1 ≤ j ∧ j < i1 + (j2 - i2))
    (hk : k < i1 ∨ i1 + (j2 - i2) ≤ k) :
    text_step D mu mu_edit mask men meg i1 i2 j2 h t false p =
      Except.ok
        (fun j' => (p.1 j' - dxt_of D mask mu h t p.1 j') * mask j',
         fun j' => (p.2 j' -
            (meg j' * dxt_trg_of (dxt_of D mask mu h t p.1) i1 i2 j2 j'
              + (1 - meg j') * dxt_of D men mu_edit h t p.2 j')) * men j')
    ∧ dxt_trg_of (dxt_of D mask mu h t p.1) i1 i2 j2 j
        = dxt_of D mask mu h t p.1 (i2 + (j - i1))
    ∧ i2 ≤ i2 + (j - i1) ∧ i2 + (j - i1) < j2
    ∧ dxt_trg_of (dxt_of D mask mu h t p.1) i1 i2 j2 k = 0 := by
  refine ⟨rfl, ?_, Nat.le_add_right i2 (j - i1), ?_, ?_⟩
  · simp only [dxt_trg_of]
    rw [if_pos hj]
  · omega
  · simp only [dxt_trg_of]
    rw [if_neg (by omega)]

theorem c7_witness : ((2 ≤ 3 ∧ 3 < 2 + (7 - 5)) ∧ (0 < 2 ∨ 2 + (7 - 5) ≤ 0)) ∧
    dxt_trg_of (dxt_of Dtest (fun _ => 1) (fun _ => 0) 1 0.5 (fun _ => 0))
      2 5 7 0 = 0 :=
  ⟨⟨by decide, by decide⟩,
    (c7_text_relocation Dtest (fun _ => 0) (fun _ => 2) (fun _ => 1) (fun _ => 1)
      (fun _ => 0) 2 5 7 1 0.5 ((fun _ => 0), (fun _ => 0)) 3 0 (by decide)
      (by decide)).2.2.2.2⟩

end

end EdiTTS
